import Mathlib

/-!
Shallow embedding of the trouble-support system (source: src/app22.py).

Modelling conventions:
* Embedding vectors are modelled with exact integer components (`List ℤ`);
  the cosine-similarity computation of `cosine_similarity` (scikit-learn)
  is represented exactly: each candidate is assigned the key
  `(dot q c, nfac c)` and two candidates are compared by the sign of their
  dot products and by cross-multiplied squares, which is provably the same
  order as comparing the real numbers `dot q c / sqrt (nfac q * nfac c)`.
  scikit-learn's `cosine_similarity` replaces a zero norm by 1 before
  dividing (so a zero vector has similarity 0 to everything); `nfac`
  reproduces that fallback.
* `np.argsort` is modelled as the stable ascending argsort (ties resolved
  by the original index).  numpy's default sort kind leaves the order of
  ties unspecified; the stable model is the deterministic reading that the
  specification itself (section 9) flags as the assumed behaviour, and it
  agrees with numpy on small arrays, where numpy uses insertion sort.
* The CSV file on disk is modelled in parsed form (`FileState`): it is
  missing, unreadable (`corrupt`: `pd.read_csv` raised), or a `Table`
  (header `cols` plus string `rows`).  `pandas` guarantees that a parsed
  table has pairwise distinct column names.
* Python `str.strip()` is modelled by the structural `pyStrip` (drop
  whitespace from both ends), and `NaN` cells of the description column by
  `Option String` (`none` = NaN), so that `dropna` / `fillna("")` on that
  column are `filterMap` / `getD ""`.
-/

/-- Python `s.strip()`: remove whitespace from both ends of a string. -/
def pyStrip (s : String) : String :=
  ⟨((s.data.dropWhile Char.isWhitespace).reverse.dropWhile Char.isWhitespace).reverse⟩

/-- Dot product of two vectors, zipping componentwise (excess entries of the
longer vector are ignored, as in numpy only equal lengths are meaningful). -/
def dot : List ℤ → List ℤ → ℤ
  | a :: as, b :: bs => a * b + dot as bs
  | _, _ => 0

/-- Squared norm used by `cosine_similarity`, with scikit-learn's zero-norm
fallback: a zero vector is given norm factor 1 instead of 0, so that its
cosine similarity to anything is 0 rather than a division by zero. -/
def nfac (v : List ℤ) : ℤ :=
  if dot v v = 0 then 1 else dot v v

/-- Exact representation of the cosine similarity of the query `q` and a
candidate `c`, up to the positive factor `sqrt (nfac q)` that is shared by
all candidates: the pair `(dot q c, nfac c)` stands for the real number
`dot q c / sqrt (nfac c)`. -/
def simKey (q c : List ℤ) : ℤ × ℤ :=
  (dot q c, nfac c)

/-- Decides `a.1 / sqrt a.2 < b.1 / sqrt b.2` (for positive `a.2`, `b.2`)
using only integer arithmetic: compare signs first, then cross-multiplied
squares.  `keyLtB_iff` below proves this is the real comparison. -/
def keyLtB (a b : ℤ × ℤ) : Bool :=
  decide ((a.1 < 0 ∧ 0 ≤ b.1) ∨
    (0 ≤ a.1 ∧ 0 ≤ b.1 ∧ a.1 ^ 2 * b.2 < b.1 ^ 2 * a.2) ∨
    (a.1 < 0 ∧ b.1 < 0 ∧ b.1 ^ 2 * a.2 < a.1 ^ 2 * b.2))

/-- Exact equality of two represented similarity values. -/
def keyEqB (a b : ℤ × ℤ) : Bool :=
  !keyLtB a b && !keyLtB b a

/-- Comparison used by the stable ascending argsort on indices `i`, `j` into
the key list `ks`: strictly smaller similarity first, ties by index. -/
def rankRelB (ks : List (ℤ × ℤ)) (i j : ℕ) : Bool :=
  keyLtB (ks.getD i (0, 1)) (ks.getD j (0, 1)) ||
    (keyEqB (ks.getD i (0, 1)) (ks.getD j (0, 1)) && decide (i ≤ j))

/-- Python slice `l[-k:]`: the last `k` elements, except that `k = 0` gives
`l[-0:] = l[0:] = l`, the whole list. -/
def takeLastPy (l : List ℕ) (k : ℕ) : List ℕ :=
  if k = 0 then l else l.drop (l.length - k)

/-- Similarity ranker (src/app22.py lines 95-96):
`cosine_similarity(input_vec, trouble_vecs)` followed by
`argsort()[-top_n:][::-1]`.  Returns positions into `candidates`. -/
def rank (query : List ℤ) (candidates : List (List ℤ)) (topN : ℕ) : List ℕ :=
  (takeLastPy
    (List.insertionSort
      (fun i j => rankRelB (candidates.map (simKey query)) i j = true)
      (List.range candidates.length))
    topN).reverse

/-- Real cosine similarity of `q` and `a` is strictly below that of `q` and
`b` (with the zero-norm fallback of `nfac` in the denominators). -/
def cosLt (q a b : List ℤ) : Prop :=
  (dot q a : ℝ) / Real.sqrt ((nfac q : ℝ) * (nfac a : ℝ)) <
    (dot q b : ℝ) / Real.sqrt ((nfac q : ℝ) * (nfac b : ℝ))

/-- Real cosine similarity of `q` and `a` is at most that of `q` and `b`. -/
def cosLe (q a b : List ℤ) : Prop :=
  (dot q a : ℝ) / Real.sqrt ((nfac q : ℝ) * (nfac a : ℝ)) ≤
    (dot q b : ℝ) / Real.sqrt ((nfac q : ℝ) * (nfac b : ℝ))

/-- `q` has exactly the same real cosine similarity to `a` and to `b`. -/
def cosEq (q a b : List ℤ) : Prop :=
  (dot q a : ℝ) / Real.sqrt ((nfac q : ℝ) * (nfac a : ℝ)) =
    (dot q b : ℝ) / Real.sqrt ((nfac q : ℝ) * (nfac b : ℝ))

/-- The real cosine similarity of `q` and `c` equals the rational `v`. -/
def cosIs (q c : List ℤ) (v : ℚ) : Prop :=
  (dot q c : ℝ) / Real.sqrt ((nfac q : ℝ) * (nfac c : ℝ)) = (v : ℝ)

/-- Every key of the list has a positive norm factor (true of every key
list the ranker builds, thanks to the zero-norm fallback). -/
def KeysPos (ks : List (ℤ × ℤ)) : Prop :=
  ∀ k ∈ ks, 0 < k.2

/-- One incident record (one row of the trouble list).  The description
(`トラブル内容`) is the field searched semantically; `none` models a NaN cell
of a loaded table. -/
structure IncidentRecord where
  site : String
  occurredOn : String
  machineId : String
  equipment : String
  description : Option String
  cause : String
  correctiveAction : String
  responseHours : ℚ
  responder : String
  investigationProcess : String
  investigationNotes : String
deriving DecidableEq

/-- BERT similarity search (src/app22.py lines 83-98), with the embedding
model `model.encode` passed in as `encode`.  Returns the chosen records
together with the list of batches that were sent to the embedding model
(`[]` when the model was never invoked), mirroring the single
`model.encode(sentences)` call of the source. -/
def find_similar_troubles_bert (encode : List String → List (List ℤ))
    (input_trouble : String) (df : List IncidentRecord) (top_n : ℕ) :
    List IncidentRecord × List (List String) :=
  if df = [] ∨ df.filterMap (fun r => r.description) = [] then ([], [])
  else
    let troubles := df.map (fun r => r.description.getD "")
    if troubles.all (fun t => pyStrip t == "") then ([], [])
    else
      let sentences := troubles ++ [input_trouble]
      let embeddings := encode sentences
      let input_vec := embeddings.getLast?.getD []
      let trouble_vecs := embeddings.dropLast
      let top_indices := rank input_vec trouble_vecs top_n
      (top_indices.filterMap (fun i => df.get? i), [sentences])

/-- Equipment filter of the search page (src/app22.py lines 202-204):
`none` is the "すべて" (show all) choice, `some v` keeps the records whose
`設備名` equals `v` exactly. -/
def filterByEquipment (df : List IncidentRecord) (sel : Option String) :
    List IncidentRecord :=
  match sel with
  | none => df
  | some v => df.filter (fun r => r.equipment == v)

/-- The eleven canonical column names of the trouble list
(src/app22.py lines 20-23). -/
def COLUMNS : List String :=
  ["発生拠点", "発生年月日", "成形機No.", "設備名", "トラブル内容",
   "原因", "是正内容", "対応時間(h)", "対応者", "調査過程", "調査時の注意点"]

/-- A parsed CSV table: header plus rows of string cells. -/
structure Table where
  cols : List String
  rows : List (List String)
deriving DecidableEq

/-- State of the backing CSV file: absent, present but unreadable
(`pd.read_csv` raises), or successfully parsed. -/
inductive FileState where
  | missing
  | corrupt
  | table (t : Table)
deriving DecidableEq

/-- The backfill loop of `safe_read_csv` (src/app22.py lines 72-74) and of
the registration handler (lines 308-310): for each name in `cs` that is not
yet a column, append it as a new column whose every cell is `""`. -/
def addMissingCols (t : Table) : List String → Table
  | [] => t
  | c :: cs =>
    if c ∈ t.cols then addMissingCols t cs
    else addMissingCols ⟨t.cols ++ [c], t.rows.map (fun row => row ++ [""])⟩ cs

/-- Column selection `df[cs]` of pandas: reindex every row to the column
list `cs`, looking cells up by column name. -/
def selectCols (t : Table) (cs : List String) : Table :=
  ⟨cs, t.rows.map (fun row => cs.map (fun c => row.getD (t.cols.indexOf c) ""))⟩

/-- Fault-tolerant CSV load (src/app22.py lines 65-81).  A missing file
yields an empty canonical table; a file that fails to parse yields an empty
canonical table plus a user-facing warning (the `Bool` component); a parsed
table gets its missing canonical columns backfilled with `""` and is then
reindexed to the present-canonical-columns-first order computed on line 76.
The function is total: no input makes it raise. -/
def safe_read_csv : FileState → Table × Bool
  | .missing => (⟨COLUMNS, []⟩, false)
  | .corrupt => (⟨COLUMNS, []⟩, true)
  | .table t =>
    let t2 := addMissingCols t COLUMNS
    let ordered := t2.cols.filter (fun c => decide (c ∈ COLUMNS)) ++
      COLUMNS.filter (fun c => decide (c ∉ t2.cols))
    (selectCols t2 ordered, false)

/-- Record-store read: the table produced by `safe_read_csv`. -/
def loadT (fs : FileState) : Table :=
  (safe_read_csv fs).1

/-- Serialization of a record to one CSV row in canonical column order, as
built by the registration handler (src/app22.py lines 287-300). -/
def recordRow (r : IncidentRecord) : List String :=
  [r.site, r.occurredOn, r.machineId, r.equipment, r.description.getD "",
   r.cause, r.correctiveAction, toString r.responseHours, r.responder,
   r.investigationProcess, r.investigationNotes]

/-- Append cycle of the registration handler (src/app22.py lines 302-313),
run under the file lock: reload the current contents, align the new one-row
frame to the reloaded columns, concatenate, and rewrite the whole file. -/
def appendRow (fs : FileState) (row : List String) : FileState :=
  .table ⟨(safe_read_csv fs).1.cols,
    (safe_read_csv fs).1.rows ++
      (selectCols (addMissingCols ⟨COLUMNS, [row]⟩ (safe_read_csv fs).1.cols)
        (safe_read_csv fs).1.cols).rows⟩

/-- Values of the registration form (src/app22.py lines 252-266).
`location`, `date` and `equipment` come from select widgets and are always
set; `time` is the `対応時間(h)` number. -/
structure SubmissionForm where
  location : String
  date : String
  machine : String
  equipment : String
  content : String
  cause : String
  action : String
  time : ℚ
  person : String
  process : String
  notes : String

/-- Validation of a submission (src/app22.py lines 273-282): the seven free
text fields must be non-blank after stripping and the response time must be
non-negative. -/
def formValid (f : SubmissionForm) : Bool :=
  !(pyStrip f.machine == "") && !(pyStrip f.content == "") &&
    !(pyStrip f.cause == "") && !(pyStrip f.action == "") &&
    decide (0 ≤ f.time) && !(pyStrip f.person == "") &&
    !(pyStrip f.process == "") && !(pyStrip f.notes == "")

/-- The new CSV row built from a validated form (src/app22.py lines 287-299):
free-text fields stripped, the date already serialized, the time numeric. -/
def rowOfForm (f : SubmissionForm) : List String :=
  [f.location, f.date, pyStrip f.machine, f.equipment, pyStrip f.content,
   pyStrip f.cause, pyStrip f.action, toString f.time, pyStrip f.person,
   pyStrip f.process, pyStrip f.notes]

/-- Registration form handler (src/app22.py lines 270-313).  Returns the
resulting file state, whether the file lock was taken, and whether a row was
appended.  An invalid form is rejected (`st.stop()`) before the lock block
is ever entered. -/
def handleSubmission (f : SubmissionForm) (fs : FileState) :
    FileState × Bool × Bool :=
  if formValid f then (appendRow fs (rowOfForm f), true, true)
  else (fs, false, false)

/-- Query vector of the worked ranking example: `[1,0,0,0]` has norm 1. -/
def exQ : List ℤ := [1, 0, 0, 0]

/-- Candidate with cosine similarity 9/10 to `exQ` (norm 10, dot 9). -/
def exC09 : List ℤ := [9, 3, 3, 1]

/-- Candidate with cosine similarity 1/2 to `exQ` (norm 2, dot 1). -/
def exC05 : List ℤ := [1, 1, 1, 1]

/-- Candidate with cosine similarity 1/10 to `exQ` (norm 10, dot 1). -/
def exC01 : List ℤ := [1, 7, 7, 1]

/-- Concrete embedding model for counterexamples: `"leak"` is sent to
`[0,1]`, everything else (including the empty description and the query) to
`[1,0]`. -/
def encodeCE (l : List String) : List (List ℤ) :=
  l.map (fun s => if s = "leak" then [0, 1] else [1, 0])

/-- Concrete record whose description is present but empty. -/
def recBlank : IncidentRecord :=
  ⟨"防府", "2024/01/01", "M1", "成形機", some "", "原因A", "是正A", 0,
   "担当A", "過程A", "注意A"⟩

/-- Concrete record with the non-blank description `"leak"`. -/
def recLeak : IncidentRecord :=
  ⟨"防府", "2024/01/02", "M2", "成形機", some "leak", "原因B", "是正B", 0,
   "担当B", "過程B", "注意B"⟩

/-- Concrete form whose machine number is blank (invalid submission). -/
def formCE : SubmissionForm :=
  ⟨"防府", "2024/01/01", "", "成形機", "内容X", "原因X", "是正X", 1,
   "担当X", "過程X", "注意X"⟩

/-- Dot of anything with the empty vector is 0. -/
theorem dot_nil_right (q : List ℤ) : dot q [] = 0 := by
  cases q <;> rfl

/-- A vector's dot product with itself is non-negative. -/
theorem dot_self_nonneg (v : List ℤ) : 0 ≤ dot v v := by
  induction v with
  | nil => simp [dot]
  | cons a as ih => unfold dot; nlinarith [mul_self_nonneg a]

/-- The norm factor is always positive, thanks to the zero-norm fallback. -/
theorem nfac_pos (v : List ℤ) : 0 < nfac v := by
  unfold nfac
  split
  · norm_num
  · rcases lt_or_eq_of_le (dot_self_nonneg v) with h | h
    · exact h
    · exact absurd h.symm (by assumption)

/-- The key of the empty candidate is the default key. -/
theorem simKey_nil (q : List ℤ) : simKey q [] = (0, 1) := by
  unfold simKey nfac
  rw [dot_nil_right]
  simp [dot]

/-- The integer comparator `keyLtB` decides exactly the strict order of the
represented real values `num / sqrt den`. -/
theorem keyLtB_iff (x p y s : ℤ) (hp : 0 < p) (hs : 0 < s) :
    keyLtB (x, p) (y, s) = true ↔
      (x : ℝ) / Real.sqrt (p : ℝ) < (y : ℝ) / Real.sqrt (s : ℝ) := by
  have hpR : (0 : ℝ) < (p : ℝ) := by exact_mod_cast hp
  have hsR : (0 : ℝ) < (s : ℝ) := by exact_mod_cast hs
  have hsp : (0 : ℝ) < Real.sqrt (p : ℝ) := Real.sqrt_pos.mpr hpR
  have hss : (0 : ℝ) < Real.sqrt (s : ℝ) := Real.sqrt_pos.mpr hsR
  have hp2 : Real.sqrt (p : ℝ) ^ 2 = (p : ℝ) := Real.sq_sqrt hpR.le
  have hs2 : Real.sqrt (s : ℝ) ^ 2 = (s : ℝ) := Real.sq_sqrt hsR.le
  unfold keyLtB
  rw [decide_eq_true_eq]
  constructor
  · rintro (⟨hx, hy⟩ | ⟨hx, hy, hlt⟩ | ⟨hx, hy, hlt⟩)
    · exact lt_of_lt_of_le (div_neg_of_neg_of_pos (by exact_mod_cast hx) hsp)
        (div_nonneg (by exact_mod_cast hy) hss.le)
    · have ha : (0 : ℝ) ≤ (x : ℝ) / Real.sqrt (p : ℝ) :=
        div_nonneg (by exact_mod_cast hx) hsp.le
      have hb : (0 : ℝ) ≤ (y : ℝ) / Real.sqrt (s : ℝ) :=
        div_nonneg (by exact_mod_cast hy) hss.le
      rw [← pow_lt_pow_iff_left₀ ha hb (by norm_num : (2 : ℕ) ≠ 0),
        div_pow, div_pow, hp2, hs2, div_lt_div_iff₀ hpR hsR]
      exact_mod_cast hlt
    · have key : (-(y : ℝ)) / Real.sqrt (s : ℝ) < (-(x : ℝ)) / Real.sqrt (p : ℝ) := by
        have ha : (0 : ℝ) ≤ (-(y : ℝ)) / Real.sqrt (s : ℝ) :=
          div_nonneg (neg_nonneg.mpr (by exact_mod_cast hy.le)) hss.le
        have hb : (0 : ℝ) ≤ (-(x : ℝ)) / Real.sqrt (p : ℝ) :=
          div_nonneg (neg_nonneg.mpr (by exact_mod_cast hx.le)) hsp.le
        rw [← pow_lt_pow_iff_left₀ ha hb (by norm_num : (2 : ℕ) ≠ 0),
          div_pow, div_pow, hp2, hs2, neg_sq, neg_sq, div_lt_div_iff₀ hsR hpR]
        exact_mod_cast hlt
      rw [neg_div, neg_div, neg_lt_neg_iff] at key
      exact key
  · intro h
    rcases lt_or_le x 0 with hx | hx
    · rcases lt_or_le y 0 with hy | hy
      · refine Or.inr (Or.inr ⟨hx, hy, ?_⟩)
        have key : (-(y : ℝ)) / Real.sqrt (s : ℝ) < (-(x : ℝ)) / Real.sqrt (p : ℝ) := by
          rw [neg_div, neg_div, neg_lt_neg_iff]; exact h
        have ha : (0 : ℝ) ≤ (-(y : ℝ)) / Real.sqrt (s : ℝ) :=
          div_nonneg (neg_nonneg.mpr (by exact_mod_cast hy.le)) hss.le
        have h2 := pow_lt_pow_left₀ key ha (by norm_num : (2 : ℕ) ≠ 0)
        rw [div_pow, div_pow, hp2, hs2, neg_sq, neg_sq,
          div_lt_div_iff₀ hsR hpR] at h2
        exact_mod_cast h2
      · exact Or.inl ⟨hx, hy⟩
    · rcases lt_or_le y 0 with hy | hy
      · exfalso
        have h1 : (y : ℝ) / Real.sqrt (s : ℝ) < 0 :=
          div_neg_of_neg_of_pos (by exact_mod_cast hy) hss
        have h2 : (0 : ℝ) ≤ (x : ℝ) / Real.sqrt (p : ℝ) :=
          div_nonneg (by exact_mod_cast hx) hsp.le
        linarith
      · refine Or.inr (Or.inl ⟨hx, hy, ?_⟩)
        have ha : (0 : ℝ) ≤ (x : ℝ) / Real.sqrt (p : ℝ) :=
          div_nonneg (by exact_mod_cast hx) hsp.le
        have h2 := pow_lt_pow_left₀ h ha (by norm_num : (2 : ℕ) ≠ 0)
        rw [div_pow, div_pow, hp2, hs2, div_lt_div_iff₀ hpR hsR] at h2
        exact_mod_cast h2

/-- The integer tie test `keyEqB` decides exactly the equality of the
represented real values. -/
theorem keyEqB_iff (x p y s : ℤ) (hp : 0 < p) (hs : 0 < s) :
    keyEqB (x, p) (y, s) = true ↔
      (x : ℝ) / Real.sqrt (p : ℝ) = (y : ℝ) / Real.sqrt (s : ℝ) := by
  unfold keyEqB
  rw [Bool.and_eq_true, Bool.not_eq_true', Bool.not_eq_true',
    ← Bool.not_eq_true (keyLtB (x, p) (y, s)), ← Bool.not_eq_true (keyLtB (y, s) (x, p))]
  rw [keyLtB_iff x p y s hp hs, keyLtB_iff y s x p hs hp]
  constructor
  · rintro ⟨h1, h2⟩
    exact le_antisymm (not_lt.mp h2) (not_lt.mp h1)
  · intro h
    constructor
    · rw [h]; exact lt_irrefl _
    · rw [h]; exact lt_irrefl _

/-- Bridge at the level of `simKey`: the comparator decides the strict order
of the per-candidate values `dot q c / sqrt (nfac c)`. -/
theorem keyLtB_simKey (q a b : List ℤ) :
    keyLtB (simKey q a) (simKey q b) = true ↔
      (dot q a : ℝ) / Real.sqrt ((nfac a : ℝ)) <
        (dot q b : ℝ) / Real.sqrt ((nfac b : ℝ)) :=
  keyLtB_iff (dot q a) (nfac a) (dot q b) (nfac b) (nfac_pos a) (nfac_pos b)

/-- Bridge at the level of `simKey`: the tie test decides equality of the
per-candidate values. -/
theorem keyEqB_simKey (q a b : List ℤ) :
    keyEqB (simKey q a) (simKey q b) = true ↔
      (dot q a : ℝ) / Real.sqrt ((nfac a : ℝ)) =
        (dot q b : ℝ) / Real.sqrt ((nfac b : ℝ)) :=
  keyEqB_iff (dot q a) (nfac a) (dot q b) (nfac b) (nfac_pos a) (nfac_pos b)

/-- Rescaling both candidate values by the common positive factor
`1 / sqrt nq` does not change their strict order. -/
theorem div_sqrt_scale_lt {A B na nb nq : ℝ} (hnq : 0 < nq) :
    A / Real.sqrt na < B / Real.sqrt nb ↔
      A / Real.sqrt (nq * na) < B / Real.sqrt (nq * nb) := by
  have hsq : 0 < Real.sqrt nq := Real.sqrt_pos.mpr hnq
  rw [Real.sqrt_mul hnq.le, Real.sqrt_mul hnq.le]
  have e1 : A / (Real.sqrt nq * Real.sqrt na) = A / Real.sqrt na / Real.sqrt nq := by
    ring
  have e2 : B / (Real.sqrt nq * Real.sqrt nb) = B / Real.sqrt nb / Real.sqrt nq := by
    ring
  rw [e1, e2, div_lt_div_iff_of_pos_right hsq]

/-- Rescaling both candidate values by the common positive factor
`1 / sqrt nq` does not change equality. -/
theorem div_sqrt_scale_eq {A B na nb nq : ℝ} (hnq : 0 < nq) :
    A / Real.sqrt na = B / Real.sqrt nb ↔
      A / Real.sqrt (nq * na) = B / Real.sqrt (nq * nb) := by
  have hsq : 0 < Real.sqrt nq := Real.sqrt_pos.mpr hnq
  rw [Real.sqrt_mul hnq.le, Real.sqrt_mul hnq.le]
  have e1 : A / (Real.sqrt nq * Real.sqrt na) = A / Real.sqrt na / Real.sqrt nq := by
    ring
  have e2 : B / (Real.sqrt nq * Real.sqrt nb) = B / Real.sqrt nb / Real.sqrt nq := by
    ring
  rw [e1, e2, div_left_inj' hsq.ne']

/-- The comparator on keys decides exactly the real cosine order. -/
theorem keyLtB_cosLt (q a b : List ℤ) :
    keyLtB (simKey q a) (simKey q b) = true ↔ cosLt q a b := by
  have hq : (0 : ℝ) < (nfac q : ℝ) := by exact_mod_cast nfac_pos q
  rw [keyLtB_simKey]
  exact div_sqrt_scale_lt hq

/-- The tie test on keys decides exactly real cosine equality. -/
theorem keyEqB_cosEq (q a b : List ℤ) :
    keyEqB (simKey q a) (simKey q b) = true ↔ cosEq q a b := by
  have hq : (0 : ℝ) < (nfac q : ℝ) := by exact_mod_cast nfac_pos q
  rw [keyEqB_simKey]
  exact div_sqrt_scale_eq hq

/-- Keys built from candidates always have positive norm factors. -/
theorem keysPos_simKeys (q : List ℤ) (cands : List (List ℤ)) :
    KeysPos (cands.map (simKey q)) := by
  intro k hk
  rcases List.mem_map.mp hk with ⟨c, _, rfl⟩
  exact nfac_pos c

/-- Any key fetched with the default `(0, 1)` has a positive norm factor. -/
theorem keysPos_getD {ks : List (ℤ × ℤ)} (h : KeysPos ks) (i : ℕ) :
    0 < (ks.getD i (0, 1)).2 := by
  rcases lt_or_le i ks.length with hi | hi
  · rw [List.getD_eq_getElem ks (0, 1) hi]
    exact h _ (List.getElem_mem hi)
  · rw [List.getD_eq_default ks (0, 1) hi]
    norm_num

/-- Fetching the `i`-th key of the ranker's key list is taking the key of
the `i`-th candidate (the default key is the key of the empty vector). -/
theorem simKeys_getD (q : List ℤ) (cands : List (List ℤ)) (i : ℕ) :
    (cands.map (simKey q)).getD i (0, 1) = simKey q (cands.getD i []) := by
  rw [← simKey_nil q]
  exact List.getD_map cands [] (simKey q)

/-- The argsort comparison is total (on key lists with positive norms). -/
theorem rankRelB_total {ks : List (ℤ × ℤ)} (h : KeysPos ks) (i j : ℕ) :
    rankRelB ks i j = true ∨ rankRelB ks j i = true := by
  have hi := keysPos_getD h i
  have hj := keysPos_getD h j
  unfold rankRelB
  rw [Bool.or_eq_true, Bool.or_eq_true, Bool.and_eq_true, Bool.and_eq_true,
    decide_eq_true_eq, decide_eq_true_eq,
    ← Prod.mk.eta (p := ks.getD i (0, 1)), ← Prod.mk.eta (p := ks.getD j (0, 1)),
    keyLtB_iff _ _ _ _ hi hj, keyLtB_iff _ _ _ _ hj hi,
    keyEqB_iff _ _ _ _ hi hj, keyEqB_iff _ _ _ _ hj hi]
  rcases lt_trichotomy
    (((ks.getD i (0, 1)).1 : ℝ) / Real.sqrt ((ks.getD i (0, 1)).2 : ℝ))
    (((ks.getD j (0, 1)).1 : ℝ) / Real.sqrt ((ks.getD j (0, 1)).2 : ℝ)) with h1 | h1 | h1
  · exact Or.inl (Or.inl h1)
  · rcases le_total i j with h2 | h2
    · exact Or.inl (Or.inr ⟨h1, h2⟩)
    · exact Or.inr (Or.inr ⟨h1.symm, h2⟩)
  · exact Or.inr (Or.inl h1)

/-- The argsort comparison is transitive (on key lists with positive norms). -/
theorem rankRelB_trans {ks : List (ℤ × ℤ)} (h : KeysPos ks) {i j k : ℕ}
    (h1 : rankRelB ks i j = true) (h2 : rankRelB ks j k = true) :
    rankRelB ks i k = true := by
  have hi := keysPos_getD h i
  have hj := keysPos_getD h j
  have hk := keysPos_getD h k
  unfold rankRelB at h1 h2 ⊢
  rw [Bool.or_eq_true, Bool.and_eq_true, decide_eq_true_eq,
    ← Prod.mk.eta (p := ks.getD i (0, 1)), ← Prod.mk.eta (p := ks.getD j (0, 1)),
    keyLtB_iff _ _ _ _ hi hj, keyEqB_iff _ _ _ _ hi hj] at h1
  rw [Bool.or_eq_true, Bool.and_eq_true, decide_eq_true_eq,
    ← Prod.mk.eta (p := ks.getD j (0, 1)), ← Prod.mk.eta (p := ks.getD k (0, 1)),
    keyLtB_iff _ _ _ _ hj hk, keyEqB_iff _ _ _ _ hj hk] at h2
  rw [Bool.or_eq_true, Bool.and_eq_true, decide_eq_true_eq,
    ← Prod.mk.eta (p := ks.getD i (0, 1)), ← Prod.mk.eta (p := ks.getD k (0, 1)),
    keyLtB_iff _ _ _ _ hi hk, keyEqB_iff _ _ _ _ hi hk]
  rcases h1 with h1 | ⟨h1, h1'⟩ <;> rcases h2 with h2 | ⟨h2, h2'⟩
  · exact Or.inl (lt_trans h1 h2)
  · exact Or.inl (h2 ▸ h1)
  · exact Or.inl (h1 ▸ h2)
  · exact Or.inr ⟨h1.trans h2, h1'.trans h2'⟩

/-- If the comparison accepts the ordered pair `(i, j)`, the `i`-th candidate
has real cosine similarity at most that of the `j`-th candidate. -/
theorem rankRelB_cosLe (q : List ℤ) (cands : List (List ℤ)) {i j : ℕ}
    (hr : rankRelB (cands.map (simKey q)) i j = true) :
    cosLe q (cands.getD i []) (cands.getD j []) := by
  unfold rankRelB at hr
  rw [simKeys_getD, simKeys_getD, Bool.or_eq_true, Bool.and_eq_true] at hr
  have hq : (0 : ℝ) < (nfac q : ℝ) := by exact_mod_cast nfac_pos q
  rcases hr with hlt | ⟨heq, _⟩
  · exact le_of_lt ((keyLtB_cosLt q _ _).mp hlt)
  · exact le_of_eq ((keyEqB_cosEq q _ _).mp heq)

/-- A tie accepted in index order: equal keys and `i ≤ j` satisfy the
argsort comparison. -/
theorem rankRelB_of_tie {ks : List (ℤ × ℤ)} {i j : ℕ}
    (heq : keyEqB (ks.getD i (0, 1)) (ks.getD j (0, 1)) = true) (hij : i ≤ j) :
    rankRelB ks i j = true := by
  unfold rankRelB
  rw [Bool.or_eq_true, Bool.and_eq_true]
  exact Or.inr ⟨heq, by simpa using hij⟩

/-- A tie is never accepted against index order. -/
theorem not_rankRelB_of_tie {ks : List (ℤ × ℤ)} {i j : ℕ}
    (heq : keyEqB (ks.getD i (0, 1)) (ks.getD j (0, 1)) = true) (hij : i < j) :
    ¬ rankRelB ks j i = true := by
  intro hr
  unfold rankRelB at hr
  rw [Bool.or_eq_true, Bool.and_eq_true] at hr
  unfold keyEqB at heq
  rw [Bool.and_eq_true, Bool.not_eq_true', Bool.not_eq_true'] at heq
  rcases hr with hlt | ⟨_, hji⟩
  · exact absurd hlt (by rw [heq.2]; exact Bool.false_ne_true)
  · rw [decide_eq_true_eq] at hji
    omega

/-- In a pairwise-ordered list containing `a` and `b`, if the relation
rejects `(b, a)`, then `a` occurs before `b`: `[a, b]` is a sublist. -/
theorem sublist_pair_of_pairwise {α : Type} {r : α → α → Prop} {l : List α}
    {a b : α} (hp : l.Pairwise r) (ha : a ∈ l) (hb : b ∈ l) (hne : a ≠ b)
    (hnr : ¬ r b a) : [a, b].Sublist l := by
  induction l with
  | nil => cases ha
  | cons c tl ih =>
    rcases List.mem_cons.mp ha with rfl | ha'
    · have hb' : b ∈ tl := by
        rcases List.mem_cons.mp hb with h | h
        · exact absurd h.symm hne
        · exact h
      exact List.Sublist.cons₂ a (List.singleton_sublist.mpr hb')
    · rcases List.mem_cons.mp hb with rfl | hb'
      · exact absurd ((List.pairwise_cons.mp hp).1 a ha') hnr
      · exact List.Sublist.cons c (ih (List.pairwise_cons.mp hp).2 ha' hb')

/-- A two-element sublist of `l1 ++ l2` whose first element avoids `l1`
lives entirely in `l2`. -/
theorem pair_sublist_right {α : Type} {l1 l2 : List α} {a b : α}
    (h : [a, b].Sublist (l1 ++ l2)) (ha : a ∉ l1) : [a, b].Sublist l2 := by
  induction l1 with
  | nil => simpa using h
  | cons c tl ih =>
    cases h with
    | cons _ h' => exact ih h' (fun h'' => ha (List.mem_cons_of_mem c h''))
    | cons₂ _ h' => exact absurd (List.mem_cons_self _ tl) ha

/-- The Python tail slice is a sublist of the original. -/
theorem takeLastPy_sublist (l : List ℕ) (k : ℕ) : (takeLastPy l k).Sublist l := by
  unfold takeLastPy
  split
  · exact List.Sublist.refl l
  · exact List.drop_sublist _ l

/-- When `k` covers the whole list (or is the Python `-0`), the tail slice
is the whole list. -/
theorem takeLastPy_all {l : List ℕ} {k : ℕ} (h : l.length ≤ k) :
    takeLastPy l k = l := by
  unfold takeLastPy
  split
  · rfl
  · rw [Nat.sub_eq_zero_of_le h, List.drop_zero]

/-- Length of the Python tail slice for a positive `k`. -/
theorem takeLastPy_length {l : List ℕ} {k : ℕ} (hk : k ≠ 0) :
    (takeLastPy l k).length = min k l.length := by
  unfold takeLastPy
  rw [if_neg hk, List.length_drop]
  omega

/-- An in-order pair of a duplicate-free list stays in order in the Python
tail slice, provided its first element survived the slice. -/
theorem pair_sublist_takeLastPy {l : List ℕ} {a b : ℕ} {k : ℕ}
    (h : [a, b].Sublist l) (hnd : l.Nodup) (ha : a ∈ takeLastPy l k) :
    [a, b].Sublist (takeLastPy l k) := by
  by_cases hk : k = 0
  · simpa [takeLastPy, hk] using h
  · simp only [takeLastPy, if_neg hk] at ha ⊢
    have hsplit := List.take_append_drop (l.length - k) l
    have hnotin : a ∉ l.take (l.length - k) := by
      intro hin
      have hnd' : (l.take (l.length - k) ++ l.drop (l.length - k)).Nodup := by
        rw [hsplit]; exact hnd
      exact (List.nodup_append.mp hnd').2.2 hin ha
    refine pair_sublist_right ?_ hnotin
    rw [hsplit]; exact h

/-- Every index the ranker returns is a valid position into the candidates. -/
theorem rank_mem_lt (query : List ℤ) (cands : List (List ℤ)) (topN : ℕ) {i : ℕ}
    (hi : i ∈ rank query cands topN) : i < cands.length := by
  unfold rank at hi
  rw [List.mem_reverse] at hi
  have h2 := (takeLastPy_sublist _ topN).subset hi
  have h3 := (List.perm_insertionSort _ _).mem_iff.mp h2
  exact List.mem_range.mp h3

/-- The ranker never returns the same position twice. -/
theorem rank_nodup (query : List ℤ) (cands : List (List ℤ)) (topN : ℕ) :
    (rank query cands topN).Nodup := by
  unfold rank
  rw [List.nodup_reverse]
  refine List.Nodup.sublist (takeLastPy_sublist _ _) ?_
  exact ((List.perm_insertionSort _ _).nodup_iff).mpr (List.nodup_range _)

/-- For a positive `topN` the ranker returns `min topN n` positions. -/
theorem rank_length (query : List ℤ) (cands : List (List ℤ)) {topN : ℕ}
    (h : topN ≠ 0) :
    (rank query cands topN).length = min topN cands.length := by
  unfold rank
  rw [List.length_reverse, takeLastPy_length h, List.length_insertionSort,
    List.length_range]

/-- When `topN` covers all candidates the ranker returns every position
(each exactly once). -/
theorem rank_perm_of_le (query : List ℤ) (cands : List (List ℤ)) {topN : ℕ}
    (h : cands.length ≤ topN) :
    (rank query cands topN).Perm (List.range cands.length) := by
  unfold rank
  have hlen : (List.insertionSort
      (fun i j => rankRelB (cands.map (simKey query)) i j = true)
      (List.range cands.length)).length = cands.length := by
    rw [List.length_insertionSort, List.length_range]
  rw [takeLastPy_all (by rw [hlen]; exact h)]
  exact (List.reverse_perm _).trans (List.perm_insertionSort _ _)

/-- The ascending argsort the ranker builds internally is sorted for the
argsort comparison. -/
theorem rank_asc_sorted (query : List ℤ) (cands : List (List ℤ)) :
    List.Sorted (fun i j => rankRelB (cands.map (simKey query)) i j = true)
      (List.insertionSort
        (fun i j => rankRelB (cands.map (simKey query)) i j = true)
        (List.range cands.length)) := by
  haveI hto : IsTotal ℕ (fun i j => rankRelB (cands.map (simKey query)) i j = true) :=
    ⟨rankRelB_total (keysPos_simKeys query cands)⟩
  haveI htr : IsTrans ℕ (fun i j => rankRelB (cands.map (simKey query)) i j = true) :=
    ⟨fun _ _ _ h1 h2 => rankRelB_trans (keysPos_simKeys query cands) h1 h2⟩
  exact List.sorted_insertionSort _ _

/-- The ranker's output is ordered by descending real cosine similarity:
any position listed earlier has similarity at least that of any position
listed later. -/
theorem rank_sorted_desc (query : List ℤ) (cands : List (List ℤ)) (topN : ℕ) :
    (rank query cands topN).Pairwise
      (fun i j => cosLe query (cands.getD j []) (cands.getD i [])) := by
  have hsorted := rank_asc_sorted query cands
  unfold rank
  rw [List.pairwise_reverse]
  have h1 := List.Pairwise.sublist (takeLastPy_sublist _ topN) hsorted
  exact h1.imp (fun hab => rankRelB_cosLe query cands hab)

/-- Positions dropped by the ranker never beat a returned position: the
result is a top set for the real cosine order. -/
theorem rank_topset (query : List ℤ) (cands : List (List ℤ)) {topN : ℕ}
    {i j : ℕ} (hN : topN ≠ 0) (hi : i ∈ rank query cands topN)
    (hj : j < cands.length) (hjout : j ∉ rank query cands topN) :
    cosLe query (cands.getD j []) (cands.getD i []) := by
  have hsorted := rank_asc_sorted query cands
  unfold rank at hi hjout
  rw [List.mem_reverse] at hi
  rw [List.mem_reverse] at hjout
  rw [takeLastPy, if_neg hN] at hi hjout
  have hjasc : j ∈ List.insertionSort
      (fun i j => rankRelB (cands.map (simKey query)) i j = true)
      (List.range cands.length) :=
    (List.perm_insertionSort _ _).mem_iff.mpr (List.mem_range.mpr hj)
  have hsplit := List.take_append_drop
    ((List.insertionSort
      (fun i j => rankRelB (cands.map (simKey query)) i j = true)
      (List.range cands.length)).length - topN)
    (List.insertionSort
      (fun i j => rankRelB (cands.map (simKey query)) i j = true)
      (List.range cands.length))
  have hjtake : j ∈ (List.insertionSort
      (fun i j => rankRelB (cands.map (simKey query)) i j = true)
      (List.range cands.length)).take
        ((List.insertionSort
          (fun i j => rankRelB (cands.map (simKey query)) i j = true)
          (List.range cands.length)).length - topN) := by
    rcases List.mem_append.mp (by rw [hsplit]; exact hjasc) with h | h
    · exact h
    · exact absurd h hjout
  have hsorted' := hsorted
  rw [← hsplit] at hsorted'
  have hrel := (List.pairwise_append.mp hsorted').2.2 j hjtake i hi
  exact rankRelB_cosLe query cands hrel

/-- Position of an element in an append, when it avoids the left part. -/
theorem indexOf_append_right {l1 l2 : List String} {a : String} (h : a ∉ l1) :
    (l1 ++ l2).indexOf a = l1.length + l2.indexOf a := by
  induction l1 with
  | nil => simp
  | cons c tl ih =>
    have hca : (c == a) = false := by
      rw [beq_eq_false_iff_ne]
      intro hc
      exact h (hc ▸ List.mem_cons_self c tl)
    rw [List.cons_append, List.indexOf_cons, hca, cond_false,
      ih (fun hm => h (List.mem_cons_of_mem c hm)), List.length_cons]
    omega

/-- Reading anywhere in a replicated list of `""` (or past its end with
default `""`) gives `""`. -/
theorem getD_replicate_empty (m k : ℕ) :
    (List.replicate m ("" : String)).getD k "" = "" := by
  induction m generalizing k with
  | zero => simp
  | succ m ih =>
    cases k with
    | zero => simp [List.replicate_succ]
    | succ k => simp [List.replicate_succ, ih k]

/-- Closed form of the backfill loop on a duplicate-free column list: the
missing names are appended in order, and every row is padded with as many
`""` cells. -/
theorem addMissingCols_eq (t : Table) (cs : List String) (h : cs.Nodup) :
    addMissingCols t cs =
      ⟨t.cols ++ cs.filter (fun c => decide (c ∉ t.cols)),
       t.rows.map (fun row =>
         row ++ List.replicate (cs.filter (fun c => decide (c ∉ t.cols))).length "")⟩ := by
  induction cs generalizing t with
  | nil =>
    simp [addMissingCols]
  | cons c cs ih =>
    obtain ⟨hc, hcs⟩ := List.nodup_cons.mp h
    by_cases hmem : c ∈ t.cols
    · rw [addMissingCols, if_pos hmem, ih t hcs]
      have hskip : (c :: cs).filter (fun x => decide (x ∉ t.cols)) =
          cs.filter (fun x => decide (x ∉ t.cols)) := by
        rw [List.filter_cons]
        simp [hmem]
      rw [hskip]
    · rw [addMissingCols, if_neg hmem, ih _ hcs]
      have hfilter : cs.filter (fun x => decide (x ∉ t.cols ++ [c])) =
          cs.filter (fun x => decide (x ∉ t.cols)) := by
        apply List.filter_congr
        intro x hx
        have hxc : x ≠ c := fun he => hc (he ▸ hx)
        simp [List.mem_append, hxc]
      have hhead : (c :: cs).filter (fun x => decide (x ∉ t.cols)) =
          c :: cs.filter (fun x => decide (x ∉ t.cols)) := by
        rw [List.filter_cons]
        simp [hmem]
      simp only [hfilter, hhead, Table.mk.injEq]
      constructor
      · rw [List.append_assoc, List.singleton_append]
      · rw [List.map_map]
        congr 1
        funext row
        simp [Function.comp, List.append_assoc, List.replicate_succ]

/-- The backfill loop does nothing when every requested column is present. -/
theorem addMissingCols_id (t : Table) (cs : List String)
    (h : ∀ c ∈ cs, c ∈ t.cols) : addMissingCols t cs = t := by
  induction cs with
  | nil => rfl
  | cons c cs ih =>
    rw [addMissingCols, if_pos (h c (List.mem_cons_self c cs))]
    exact ih (fun x hx => h x (List.mem_cons_of_mem c hx))

/-- The canonical column list has no duplicates. -/
theorem COLUMNS_nodup : COLUMNS.Nodup := by decide

/-- Closed form of `safe_read_csv` on a parsed table: the selected column
order is the present canonical columns (in their original order) followed by
the backfilled missing canonical columns (in canonical order). -/
theorem safe_read_table_eq (t : Table) :
    safe_read_csv (FileState.table t) =
      (selectCols (addMissingCols t COLUMNS)
        (t.cols.filter (fun c => decide (c ∈ COLUMNS)) ++
          COLUMNS.filter (fun c => decide (c ∉ t.cols))), false) := by
  have ht2 := addMissingCols_eq t COLUMNS COLUMNS_nodup
  show (selectCols (addMissingCols t COLUMNS) _, false) = _
  have hcols : (addMissingCols t COLUMNS).cols =
      t.cols ++ COLUMNS.filter (fun c => decide (c ∉ t.cols)) := by
    rw [ht2]
  have h1 : (addMissingCols t COLUMNS).cols.filter (fun c => decide (c ∈ COLUMNS)) =
      t.cols.filter (fun c => decide (c ∈ COLUMNS)) ++
        COLUMNS.filter (fun c => decide (c ∉ t.cols)) := by
    rw [hcols, List.filter_append]
    congr 1
    rw [List.filter_eq_self]
    intro a ha
    exact decide_eq_true (List.mem_filter.mp ha).1
  have h2 : COLUMNS.filter (fun c => decide (c ∉ (addMissingCols t COLUMNS).cols)) = [] := by
    rw [List.filter_eq_nil_iff]
    intro c hcC
    rw [hcols]
    simp only [decide_eq_true_eq, List.mem_append]
    intro hcon
    by_cases hct : c ∈ t.cols
    · exact hcon (Or.inl hct)
    · exact hcon (Or.inr (List.mem_filter.mpr ⟨hcC, decide_eq_true hct⟩))
  rw [h1, h2, List.append_nil]

/-- Every column of a loaded table is canonical. -/
theorem safe_read_cols_mem (fs : FileState) :
    ∀ c ∈ (safe_read_csv fs).1.cols, c ∈ COLUMNS := by
  cases fs with
  | missing => exact fun c hc => hc
  | corrupt => exact fun c hc => hc
  | table t =>
    intro c hc
    rw [safe_read_table_eq t] at hc
    rcases List.mem_append.mp hc with h | h
    · exact of_decide_eq_true (List.mem_filter.mp h).2
    · exact (List.mem_filter.mp h).1

/-- C7: the record-store load never raises past its boundary: a missing
backing table gives the empty canonical-column table (and no warning); a
table whose read or parse fails gives the empty canonical-column table and
surfaces a warning instead of propagating the exception.  (`safe_read_csv`
is a total function of the file state, so no input can make it raise.) -/
theorem safe_read_csv_fails_open :
    safe_read_csv FileState.missing = (⟨COLUMNS, []⟩, false) ∧
      safe_read_csv FileState.corrupt = (⟨COLUMNS, []⟩, true) :=
  ⟨rfl, rfl⟩

/-- C5 counterexample: a backing table carrying only the second canonical
column, with one row.  Loading does backfill every missing column with `""`,
but the resulting column order is not the canonical one: the present column
`発生年月日` stays first and the canonical first column `発生拠点` comes
second, refuting the claim that the column order is canonical. -/
theorem safe_read_csv_order_counterexample :
    (safe_read_csv (FileState.table ⟨["発生年月日"], [["2024/01/01"]]⟩)).1.cols ≠
        COLUMNS ∧
      (safe_read_csv (FileState.table ⟨["発生年月日"], [["2024/01/01"]]⟩)).1 =
        ⟨["発生年月日", "発生拠点", "成形機No.", "設備名", "トラブル内容", "原因",
          "是正内容", "対応時間(h)", "対応者", "調査過程", "調査時の注意点"],
         [["2024/01/01", "", "", "", "", "", "", "", "", "", ""]]⟩ :=
  ⟨by decide, by decide⟩


/-- C5 (amended): loading a table with some canonical columns missing
backfills every missing column with `""` in every row and keeps the row
count; the resulting column order is the present canonical columns in their
original relative order followed by the missing canonical columns in
canonical order (which equals the canonical order only when the present
columns are a canonical-order prefix). -/
theorem safe_read_csv_backfills_missing (t : Table)
    (hrows : ∀ row ∈ t.rows, row.length = t.cols.length) :
    (safe_read_csv (FileState.table t)).1.cols =
      t.cols.filter (fun c => decide (c ∈ COLUMNS)) ++
        COLUMNS.filter (fun c => decide (c ∉ t.cols)) ∧
    (safe_read_csv (FileState.table t)).1.rows.length = t.rows.length ∧
    ∀ c ∈ COLUMNS, c ∉ t.cols →
      ∀ row' ∈ (safe_read_csv (FileState.table t)).1.rows,
        row'.getD ((safe_read_csv (FileState.table t)).1.cols.indexOf c) "" = "" := by
  have ht2 := addMissingCols_eq t COLUMNS COLUMNS_nodup
  have ht2cols : (addMissingCols t COLUMNS).cols =
      t.cols ++ COLUMNS.filter (fun c => decide (c ∉ t.cols)) := by
    rw [ht2]
  have ht2rows : (addMissingCols t COLUMNS).rows =
      t.rows.map (fun row =>
        row ++ List.replicate
          ((COLUMNS.filter (fun c => decide (c ∉ t.cols))).length) "") := by
    rw [ht2]
  rw [safe_read_table_eq t]
  refine ⟨rfl, ?_, ?_⟩
  · show ((addMissingCols t COLUMNS).rows.map _).length = t.rows.length
    rw [List.length_map, ht2rows, List.length_map]
  · intro c hcC hct row' hrow'
    have hcmiss : c ∈ COLUMNS.filter (fun x => decide (x ∉ t.cols)) :=
      List.mem_filter.mpr ⟨hcC, decide_eq_true hct⟩
    have hcnotA : c ∉ t.cols.filter (fun x => decide (x ∈ COLUMNS)) :=
      fun hin => hct (List.mem_filter.mp hin).1
    have hidxB : (COLUMNS.filter (fun x => decide (x ∉ t.cols))).indexOf c <
        (COLUMNS.filter (fun x => decide (x ∉ t.cols))).length :=
      List.indexOf_lt_length.mpr hcmiss
    rcases List.mem_map.mp hrow' with ⟨row2, hrow2, rfl⟩
    rw [ht2rows] at hrow2
    rcases List.mem_map.mp hrow2 with ⟨row, hrow, rfl⟩
    show (List.map _ (_ ++ _)).getD (List.indexOf c (_ ++ _)) "" = ""
    rw [indexOf_append_right hcnotA, List.map_append]
    rw [List.getD_append_right _ _ _ _ (by rw [List.length_map]; omega)]
    rw [List.length_map, Nat.add_sub_cancel_left]
    rw [List.getD_eq_getElem _ _ (by rw [List.length_map]; exact hidxB)]
    simp only [List.getElem_map, List.getElem_indexOf hidxB]
    rw [ht2cols, indexOf_append_right hct]
    rw [List.getD_append_right _ _ _ _ (by rw [hrows row hrow]; omega)]
    rw [hrows row hrow, Nat.add_sub_cancel_left]
    exact getD_replicate_empty _ _

/-- Witness for the amended C5 statement at a concrete malformed table. -/
theorem safe_read_csv_backfills_missing_witness :
    (∀ row ∈ (⟨["発生年月日"], [["2024/01/01"]]⟩ : Table).rows,
        row.length = (⟨["発生年月日"], [["2024/01/01"]]⟩ : Table).cols.length) ∧
    ((safe_read_csv (FileState.table ⟨["発生年月日"], [["2024/01/01"]]⟩)).1.cols =
      (⟨["発生年月日"], [["2024/01/01"]]⟩ : Table).cols.filter
          (fun c => decide (c ∈ COLUMNS)) ++
        COLUMNS.filter
          (fun c => decide (c ∉ (⟨["発生年月日"], [["2024/01/01"]]⟩ : Table).cols)) ∧
    (safe_read_csv (FileState.table ⟨["発生年月日"], [["2024/01/01"]]⟩)).1.rows.length =
      (⟨["発生年月日"], [["2024/01/01"]]⟩ : Table).rows.length ∧
    ∀ c ∈ COLUMNS, c ∉ (⟨["発生年月日"], [["2024/01/01"]]⟩ : Table).cols →
      ∀ row' ∈ (safe_read_csv (FileState.table ⟨["発生年月日"], [["2024/01/01"]]⟩)).1.rows,
        row'.getD
          ((safe_read_csv
            (FileState.table ⟨["発生年月日"], [["2024/01/01"]]⟩)).1.cols.indexOf c) "" = "") :=
  ⟨by decide, safe_read_csv_backfills_missing ⟨["発生年月日"], [["2024/01/01"]]⟩ (by decide)⟩

/-- C10: loading a table that carries extra, non-canonical columns silently
drops them: the loaded column set is exactly the eleven canonical columns
(as a permutation), and every loaded row has exactly eleven cells. -/
theorem safe_read_csv_drops_extra_columns (t : Table) (hnd : t.cols.Nodup) :
    ((safe_read_csv (FileState.table t)).1.cols).Perm COLUMNS ∧
      ∀ row' ∈ (safe_read_csv (FileState.table t)).1.rows,
        row'.length = COLUMNS.length := by
  have hperm : (t.cols.filter (fun c => decide (c ∈ COLUMNS)) ++
      COLUMNS.filter (fun c => decide (c ∉ t.cols))).Perm COLUMNS := by
    have hA : (t.cols.filter (fun c => decide (c ∈ COLUMNS))).Perm
        (COLUMNS.filter (fun c => decide (c ∈ t.cols))) := by
      rw [List.perm_ext_iff_of_nodup (hnd.filter _) (COLUMNS_nodup.filter _)]
      intro a
      simp only [List.mem_filter, decide_eq_true_eq]
      exact ⟨fun ⟨h1, h2⟩ => ⟨h2, h1⟩, fun ⟨h1, h2⟩ => ⟨h2, h1⟩⟩
    refine (hA.append (List.Perm.refl _)).trans ?_
    have hsplit := List.filter_append_perm (fun c => decide (c ∈ t.cols)) COLUMNS
    have hpred : (fun c => decide (c ∉ t.cols)) =
        (fun c => !decide (c ∈ t.cols)) := funext (fun c => decide_not)
    rw [hpred]
    exact hsplit
  rw [safe_read_table_eq t]
  refine ⟨hperm, ?_⟩
  intro row' hrow'
  rcases List.mem_map.mp hrow' with ⟨row2, _, rfl⟩
  rw [List.length_map]
  exact hperm.length_eq

/-- Witness for C10 at a table with one extra column and shuffled order. -/
theorem safe_read_csv_drops_extra_columns_witness :
    (⟨["余分", "原因", "発生拠点"], [["x", "c", "s"]]⟩ : Table).cols.Nodup ∧
    (((safe_read_csv
        (FileState.table ⟨["余分", "原因", "発生拠点"], [["x", "c", "s"]]⟩)).1.cols).Perm
          COLUMNS ∧
      ∀ row' ∈ (safe_read_csv
          (FileState.table ⟨["余分", "原因", "発生拠点"], [["x", "c", "s"]]⟩)).1.rows,
        row'.length = COLUMNS.length) :=
  ⟨by decide,
    safe_read_csv_drops_extra_columns ⟨["余分", "原因", "発生拠点"], [["x", "c", "s"]]⟩
      (by decide)⟩

set_option maxHeartbeats 3200000 in
/-- C6: the registration append is a read-modify-write cycle: for any prior
file state it rewrites the table as the reloaded contents followed by the
new record's row (reindexed to the reloaded column order); appending to an
empty store then loading yields exactly that record's row, and two
sequential appends yield the two rows in insertion order under the
canonical header. -/
theorem append_then_load_spec (fs : FileState) (r1 r2 : IncidentRecord) :
    appendRow fs (recordRow r1) =
      FileState.table ⟨(loadT fs).cols,
        (loadT fs).rows ++
          [(loadT fs).cols.map (fun c => (recordRow r1).getD (COLUMNS.indexOf c) "")]⟩ ∧
    loadT (appendRow FileState.missing (recordRow r1)) = ⟨COLUMNS, [recordRow r1]⟩ ∧
    loadT (appendRow (appendRow FileState.missing (recordRow r1)) (recordRow r2)) =
      ⟨COLUMNS, [recordRow r1, recordRow r2]⟩ := by
  refine ⟨?_, rfl, rfl⟩
  unfold appendRow
  rw [addMissingCols_id _ _ (fun c hc => safe_read_cols_mem fs c hc)]
  rfl

/-- C8: an invalid submission (a required free-text field blank after
stripping, or a negative response time) is rejected before any store
mutation is attempted: the file state is unchanged, the lock is never
taken, and no row is appended. -/
theorem invalid_submission_no_mutation (f : SubmissionForm) (fs : FileState)
    (h : pyStrip f.machine = "" ∨ pyStrip f.content = "" ∨ pyStrip f.cause = "" ∨
      pyStrip f.action = "" ∨ f.time < 0 ∨ pyStrip f.person = "" ∨
      pyStrip f.process = "" ∨ pyStrip f.notes = "") :
    handleSubmission f fs = (fs, false, false) := by
  have hval : formValid f = false := by
    unfold formValid
    rcases h with h | h | h | h | h | h | h | h
    · simp [h]
    · simp [h]
    · simp [h]
    · simp [h]
    · simp [not_le.mpr h]
    · simp [h]
    · simp [h]
    · simp [h]
  simp [handleSubmission, hval]

/-- Witness for C8 at a concrete form whose machine number is blank. -/
theorem invalid_submission_no_mutation_witness :
    (pyStrip formCE.machine = "" ∨ pyStrip formCE.content = "" ∨
      pyStrip formCE.cause = "" ∨ pyStrip formCE.action = "" ∨ formCE.time < 0 ∨
      pyStrip formCE.person = "" ∨ pyStrip formCE.process = "" ∨
      pyStrip formCE.notes = "") ∧
    handleSubmission formCE FileState.missing = (FileState.missing, false, false) :=
  ⟨Or.inl (by decide),
    invalid_submission_no_mutation formCE FileState.missing (Or.inl (by decide))⟩

/-- C4: if every record's description is blank — in particular if the record
set is empty — the search returns the empty result immediately and the
embedding model is never invoked (the trace of embedding calls is empty). -/
theorem search_all_blank_returns_empty (encode : List String → List (List ℤ))
    (input : String) (df : List IncidentRecord) (topN : ℕ)
    (h : ∀ r ∈ df, pyStrip (r.description.getD "") = "") :
    find_similar_troubles_bert encode input df topN = ([], []) := by
  simp only [find_similar_troubles_bert]
  by_cases h1 : df = [] ∨ df.filterMap (fun r => r.description) = []
  · rw [if_pos h1]
  · rw [if_neg h1]
    have h2 : ((df.map (fun r => r.description.getD "")).all
        (fun t => pyStrip t == "")) = true := by
      rw [List.all_eq_true]
      intro t ht
      rcases List.mem_map.mp ht with ⟨r, hr, rfl⟩
      rw [beq_iff_eq]
      exact h r hr
    rw [if_pos h2]

/-- Witness for C4 at a one-record store whose description is empty. -/
theorem search_all_blank_returns_empty_witness :
    (∀ r ∈ [recBlank], pyStrip (r.description.getD "") = "") ∧
      find_similar_troubles_bert encodeCE "q" [recBlank] 5 = ([], []) :=
  ⟨by decide, search_all_blank_returns_empty encodeCE "q" [recBlank] 5 (by decide)⟩

/-- C1 counterexample: with the concrete embedding model `encodeCE`, a store
of two records — one with the empty description, one with description
`"leak"` — and the query `"q"`, the record with the blank description not
only appears in the ranked result: it is ranked first.  Blank-description
records are not discarded from the candidate set. -/
theorem blank_description_not_excluded :
    (find_similar_troubles_bert encodeCE "q" [recBlank, recLeak] 5).1 =
      [recBlank, recLeak] ∧ recBlank.description = some "" :=
  ⟨rfl, rfl⟩

/-- C1 (amended): the search discards blank-description records only
globally: it returns the empty result when the store is empty or every
description is blank, but it performs no per-record eligibility filtering —
as soon as one description is non-blank, every record of the (filtered)
store, including the blank-description ones, is a ranked candidate, and
with `topN` at least the store size every record appears in the result. -/
theorem blank_records_stay_candidates (encode : List String → List (List ℤ))
    (input : String) (df : List IncidentRecord) (topN : ℕ)
    (hlen : ∀ s, (encode s).length = s.length)
    (hnb : ∃ r ∈ df, pyStrip (r.description.getD "") ≠ "")
    (htop : df.length ≤ topN) :
    ∀ r ∈ df, r ∈ (find_similar_troubles_bert encode input df topN).1 := by
  obtain ⟨r0, hr0, hr0ne⟩ := hnb
  have h1 : ¬ (df = [] ∨ df.filterMap (fun r => r.description) = []) := by
    rintro (h | h)
    · rw [h] at hr0
      cases hr0
    · rcases hd : r0.description with _ | s
      · rw [hd] at hr0ne
        exact hr0ne rfl
      · have hmem : s ∈ df.filterMap (fun r => r.description) :=
          List.mem_filterMap.mpr ⟨r0, hr0, hd⟩
        rw [h] at hmem
        cases hmem
  have h2 : ¬ ((df.map (fun r => r.description.getD "")).all
      (fun t => pyStrip t == "") = true) := by
    intro hall
    rw [List.all_eq_true] at hall
    have hb := hall _ (List.mem_map_of_mem _ hr0)
    rw [beq_iff_eq] at hb
    exact hr0ne hb
  intro r hr
  simp only [find_similar_troubles_bert]
  rw [if_neg h1, if_neg h2]
  obtain ⟨k, hk⟩ := List.mem_iff_get?.mp hr
  have hklt : k < df.length := by
    rcases List.get?_eq_some.mp hk with ⟨hlt, _⟩
    exact hlt
  refine List.mem_filterMap.mpr ⟨k, ?_, hk⟩
  refine (rank_perm_of_le _ _ ?_).mem_iff.mpr (List.mem_range.mpr ?_)
  · rw [List.length_dropLast, hlen, List.length_append, List.length_map,
      List.length_singleton]
    omega
  · rw [List.length_dropLast, hlen, List.length_append, List.length_map,
      List.length_singleton]
    omega

/-- Witness for the amended C1: in the two-record store with one blank
description, both records (the blank one included) appear in the result. -/
theorem blank_records_stay_candidates_witness :
    (∀ s, (encodeCE s).length = s.length) ∧
    (∃ r ∈ [recBlank, recLeak], pyStrip (r.description.getD "") ≠ "") ∧
    ([recBlank, recLeak] : List IncidentRecord).length ≤ 5 ∧
    ∀ r ∈ [recBlank, recLeak],
      r ∈ (find_similar_troubles_bert encodeCE "q" [recBlank, recLeak] 5).1 :=
  ⟨fun s => List.length_map s _, ⟨recLeak, by decide⟩, by decide,
    blank_records_stay_candidates encodeCE "q" [recBlank, recLeak] 5
      (fun s => List.length_map s _) ⟨recLeak, by decide⟩ (by decide)⟩

/-- C9: every record the search page returns is drawn from the equipment-
filtered candidate set, and hence from the input record sequence.  In this
pure embedding the search cannot mutate its inputs, and its output is a
function of the inputs and of the embedding model alone. -/
theorem search_result_from_candidates (encode : List String → List (List ℤ))
    (query : String) (df : List IncidentRecord) (sel : Option String) (topN : ℕ) :
    ∀ r ∈ (find_similar_troubles_bert encode query (filterByEquipment df sel) topN).1,
      r ∈ filterByEquipment df sel ∧ r ∈ df := by
  intro r hr
  have hmem : r ∈ filterByEquipment df sel := by
    simp only [find_similar_troubles_bert] at hr
    split at hr
    · simp at hr
    · split at hr
      · simp at hr
      · rcases List.mem_filterMap.mp hr with ⟨i, _, hi⟩
        exact List.get?_mem hi
  refine ⟨hmem, ?_⟩
  cases sel with
  | none => exact hmem
  | some v => exact List.mem_of_mem_filter hmem

/-- Witness for C9 at the concrete two-record store without a filter. -/
theorem search_result_from_candidates_witness :
    recBlank ∈ (find_similar_troubles_bert encodeCE "q"
        (filterByEquipment [recBlank, recLeak] none) 5).1 ∧
      (recBlank ∈ filterByEquipment [recBlank, recLeak] none ∧
        recBlank ∈ [recBlank, recLeak]) :=
  ⟨by exact List.mem_cons_self _ _,
    search_result_from_candidates encodeCE "q" [recBlank, recLeak] none 5 recBlank
      (by exact List.mem_cons_self _ _)⟩

/-- Certification scheme for concrete cosine values: if the product of norm
factors is an exact square `w ^ 2` and the dot product is `v * w`, the real
cosine similarity is exactly `v`. -/
theorem cosIs_helper (q c : List ℤ) (v : ℚ) (w : ℝ) (hw : 0 < w)
    (hsq : (nfac q : ℝ) * (nfac c : ℝ) = w ^ 2)
    (hv : (dot q c : ℝ) = v * w) : cosIs q c v := by
  unfold cosIs
  rw [hsq, Real.sqrt_sq hw.le, hv, mul_div_assoc, div_self hw.ne', mul_one]

/-- C2 counterexample: with `topN = 0` the Python slice `argsort()[-0:]`
keeps the whole array, so `rank` returns one position instead of at most
zero, refuting the claim quantified over every `topN`. -/
theorem rank_topN_zero_counterexample :
    rank [1] [[1]] 0 = [0] ∧ ¬ ((rank [1] [[1]] 0).length ≤ 0) :=
  ⟨by decide, by decide⟩

/-- C2 (amended): for every query, candidate list and `topN ≥ 1`, the
ranker returns `min topN n` pairwise-distinct valid positions, ordered by
descending real cosine similarity; no discarded candidate is strictly more
similar than any returned one, and `topN ≥ n` returns every position.  The
restriction to positive `topN` is forced by the `topN = 0` counterexample.
At the query `exQ` and candidates of cosine similarities 9/10, 1/2, 1/10,
`rank` with `topN = 2` returns position 0 (the 9/10 one) then 1 (1/2). -/
theorem rank_spec (query : List ℤ) (cands : List (List ℤ)) (topN : ℕ)
    (hN : 1 ≤ topN) :
    (rank query cands topN).length = min topN cands.length ∧
    (∀ i ∈ rank query cands topN, i < cands.length) ∧
    (rank query cands topN).Nodup ∧
    (cands.length ≤ topN → (rank query cands topN).Perm (List.range cands.length)) ∧
    (rank query cands topN).Pairwise
      (fun i j => cosLe query (cands.getD j []) (cands.getD i [])) ∧
    (∀ i ∈ rank query cands topN, ∀ j < cands.length,
      j ∉ rank query cands topN → cosLe query (cands.getD j []) (cands.getD i [])) ∧
    cosIs exQ exC09 (9 / 10) ∧ cosIs exQ exC05 (1 / 2) ∧ cosIs exQ exC01 (1 / 10) ∧
    rank exQ [exC09, exC05, exC01] 2 = [0, 1] := by
  refine ⟨rank_length query cands (by omega),
    fun i hi => rank_mem_lt query cands topN hi,
    rank_nodup query cands topN,
    fun h => rank_perm_of_le query cands h,
    rank_sorted_desc query cands topN,
    fun i hi j hj hjout => rank_topset query cands (by omega) hi hj hjout,
    ?_, ?_, ?_, by decide⟩
  · refine cosIs_helper _ _ _ 10 (by norm_num) ?_ ?_
    · rw [(by decide : nfac exQ = 1), (by decide : nfac exC09 = 100)]
      push_cast
      norm_num
    · rw [(by decide : dot exQ exC09 = 9)]
      push_cast
      norm_num
  · refine cosIs_helper _ _ _ 2 (by norm_num) ?_ ?_
    · rw [(by decide : nfac exQ = 1), (by decide : nfac exC05 = 4)]
      push_cast
      norm_num
    · rw [(by decide : dot exQ exC05 = 1)]
      push_cast
      norm_num
  · refine cosIs_helper _ _ _ 10 (by norm_num) ?_ ?_
    · rw [(by decide : nfac exQ = 1), (by decide : nfac exC01 = 100)]
      push_cast
      norm_num
    · rw [(by decide : dot exQ exC01 = 1)]
      push_cast
      norm_num

/-- Witness for the amended C2 at the worked three-candidate example. -/
theorem rank_spec_witness :
    (1 ≤ 2) ∧
    ((rank exQ [exC09, exC05, exC01] 2).length =
        min 2 ([exC09, exC05, exC01] : List (List ℤ)).length ∧
    (∀ i ∈ rank exQ [exC09, exC05, exC01] 2,
        i < ([exC09, exC05, exC01] : List (List ℤ)).length) ∧
    (rank exQ [exC09, exC05, exC01] 2).Nodup ∧
    (([exC09, exC05, exC01] : List (List ℤ)).length ≤ 2 →
      (rank exQ [exC09, exC05, exC01] 2).Perm
        (List.range ([exC09, exC05, exC01] : List (List ℤ)).length)) ∧
    (rank exQ [exC09, exC05, exC01] 2).Pairwise
      (fun i j => cosLe exQ ([exC09, exC05, exC01].getD j [])
        ([exC09, exC05, exC01].getD i [])) ∧
    (∀ i ∈ rank exQ [exC09, exC05, exC01] 2,
      ∀ j < ([exC09, exC05, exC01] : List (List ℤ)).length,
        j ∉ rank exQ [exC09, exC05, exC01] 2 →
          cosLe exQ ([exC09, exC05, exC01].getD j [])
            ([exC09, exC05, exC01].getD i [])) ∧
    cosIs exQ exC09 (9 / 10) ∧ cosIs exQ exC05 (1 / 2) ∧ cosIs exQ exC01 (1 / 10) ∧
    rank exQ [exC09, exC05, exC01] 2 = [0, 1]) :=
  ⟨by norm_num, rank_spec exQ [exC09, exC05, exC01] 2 (by norm_num)⟩

/-- The one-dimensional candidates `[1]` and `[2]` have exactly the same
cosine similarity (namely 1) to the query `[1]`. -/
theorem cosEq_one_two : cosEq [1] [1] [2] := by
  unfold cosEq
  rw [(by decide : dot [(1 : ℤ)] [(1 : ℤ)] = 1),
    (by decide : dot [(1 : ℤ)] [(2 : ℤ)] = 2),
    (by decide : nfac [(1 : ℤ)] = 1), (by decide : nfac [(2 : ℤ)] = 4)]
  push_cast
  rw [(by norm_num : ((1 : ℝ)) * 1 = 1), (by norm_num : ((1 : ℝ)) * 4 = 2 ^ 2),
    Real.sqrt_one, Real.sqrt_sq (by norm_num : (0 : ℝ) ≤ 2)]
  norm_num

/-- C3 counterexample: the two candidates tie exactly (cosine similarity 1
to the query), yet `rank` lists position 1 before position 0: the higher
original index ranks first, refuting lower-index-first tie-breaking. -/
theorem tie_break_counterexample :
    cosEq [1] [1] [2] ∧ rank [1] [[1], [2]] 5 = [1, 0] :=
  ⟨cosEq_one_two, by decide⟩

/-- C3 (amended): exact ties rank in descending original index order (the
stable ascending argsort is reversed to produce the output): whenever
candidates `i < j` tie and `i` appears in the output, `j` also appears, and
strictly before `i`. -/
theorem tie_ranks_higher_index_first (query : List ℤ) (cands : List (List ℤ))
    (topN : ℕ) {i j : ℕ} (hij : i < j) (hj : j < cands.length)
    (htie : cosEq query (cands.getD i []) (cands.getD j []))
    (hi : i ∈ rank query cands topN) :
    j ∈ rank query cands topN ∧ [j, i].Sublist (rank query cands topN) := by
  have hkeq : keyEqB ((cands.map (simKey query)).getD i (0, 1))
      ((cands.map (simKey query)).getD j (0, 1)) = true := by
    rw [simKeys_getD, simKeys_getD]
    exact (keyEqB_cosEq query _ _).mpr htie
  have hnrel : ¬ rankRelB (cands.map (simKey query)) j i = true :=
    not_rankRelB_of_tie hkeq hij
  have hsorted := rank_asc_sorted query cands
  have hperm := List.perm_insertionSort
    (fun a b => rankRelB (cands.map (simKey query)) a b = true)
    (List.range cands.length)
  have hnd : (List.insertionSort
      (fun a b => rankRelB (cands.map (simKey query)) a b = true)
      (List.range cands.length)).Nodup :=
    hperm.nodup_iff.mpr (List.nodup_range _)
  unfold rank at hi ⊢
  rw [List.mem_reverse] at hi
  have hiasc := (takeLastPy_sublist _ _).subset hi
  have hjasc : j ∈ List.insertionSort
      (fun a b => rankRelB (cands.map (simKey query)) a b = true)
      (List.range cands.length) :=
    hperm.mem_iff.mpr (List.mem_range.mpr hj)
  have hpair := sublist_pair_of_pairwise hsorted hiasc hjasc (by omega) hnrel
  have hpair2 := pair_sublist_takeLastPy hpair hnd hi
  constructor
  · rw [List.mem_reverse]
    exact hpair2.subset (by simp)
  · have hrev := hpair2.reverse
    simpa using hrev

/-- Witness for the amended C3 at the concrete tie. -/
theorem tie_ranks_higher_index_first_witness :
    (0 < 1) ∧ (1 < ([[1], [2]] : List (List ℤ)).length) ∧
    cosEq [1] ([[1], [2]].getD 0 []) ([[1], [2]].getD 1 []) ∧
    0 ∈ rank [1] [[1], [2]] 5 ∧
    (1 ∈ rank [1] [[1], [2]] 5 ∧ [1, 0].Sublist (rank [1] [[1], [2]] 5)) :=
  ⟨by norm_num, by decide, cosEq_one_two, by decide,
    tie_ranks_higher_index_first [1] [[1], [2]] 5 (by norm_num) (by decide)
      cosEq_one_two (by decide)⟩
